import Mathlib

/-!
Verification of the heredity inference program (`heredity.py`).

The development shallowly embeds the core of the program over exact rational
arithmetic: the PROBS constant tables, the derived gene transition matrix
(`create_gene_matrix`), the joint-probability evaluator (`joint_probability`),
the subset enumerator (`powerset` and the loops of `main`), the accumulator
(`update`) and the normalizer (`normalize`).  Probabilities are `ℚ`; Python's
float-division-by-zero failure in `normalize` is modelled by an `Option`
result, with `none` standing for the raised error.
-/

namespace Heredity

/-- `PROBS["mutation"]` from the source: the mutation probability 0.01. -/
def PROBS_mutation : ℚ := 1/100

/-- `PROBS["gene"]` from the source: the unconditional gene-count distribution.
Gene counts other than 0, 1, 2 never occur (their lookup would be a KeyError
in the source); they are sent to 0 here. -/
def PROBS_gene (g : Nat) : ℚ :=
  if g = 0 then 96/100
  else if g = 1 then 3/100
  else if g = 2 then 1/100
  else 0

/-- `PROBS["trait"]` from the source: probability of each trait value given a
gene count.  Gene counts other than 0, 1, 2 never occur; they are sent to 0. -/
def PROBS_trait (g : Nat) (t : Bool) : ℚ :=
  if g = 0 then (if t then 1/100 else 99/100)
  else if g = 1 then (if t then 56/100 else 44/100)
  else if g = 2 then (if t then 65/100 else 35/100)
  else 0

/-- `P_M` in `create_gene_matrix`: the mutation probability. -/
def P_M : ℚ := PROBS_mutation

/-- `P_NM` in `create_gene_matrix`: one minus the mutation probability. -/
def P_NM : ℚ := 1 - PROBS_mutation

/-- The 3×3×3 table built by `create_gene_matrix`, indexed
`gene_matrix c a b` = `gene_matrix[child genes][parent1 genes][parent2 genes]`.
Each entry is the expression assigned in the source; an entry the source
assigns by copying another entry (for example
`gene_matrix[0][0][1] = gene_matrix[0][1][0]`) is transcribed with the
expression of the entry it copies.  Indices outside 0..2 keep the `np.zeros`
initial value 0 (they never occur). -/
def gene_matrix (c a b : Nat) : ℚ :=
  if c = 0 then
    if a = 0 then
      if b = 0 then P_NM^2
      else if b = 1 then 1/2 * P_M * P_NM + 1/2 * P_NM^2
      else if b = 2 then P_NM * P_M
      else 0
    else if a = 1 then
      if b = 0 then 1/2 * P_M * P_NM + 1/2 * P_NM^2
      else if b = 1 then (1/2 * P_M)^2 + 1/2 * P_M * P_NM + (1/2 * P_NM)^2
      else if b = 2 then 1/2 * P_NM * P_M
      else 0
    else if a = 2 then
      if b = 0 then P_NM * P_M
      else if b = 1 then 1/2 * P_NM * P_M
      else if b = 2 then P_M^2
      else 0
    else 0
  else if c = 1 then
    if a = 0 then
      if b = 0 then 2 * P_M * P_NM
      else if b = 1 then 1/2 * P_NM^2 + P_M * P_NM + 1/2 * P_M^2
      else if b = 2 then P_M^2 + P_NM^2
      else 0
    else if a = 1 then
      if b = 0 then 1/2 * P_NM^2 + P_M * P_NM + 1/2 * P_M^2
      else if b = 1 then 1/2 * P_NM^2 + P_M * P_NM + 1/2 * P_M^2
      else if b = 2 then 1/2 * P_NM^2 + P_M * P_NM + 1/2 * P_M^2
      else 0
    else if a = 2 then
      if b = 0 then P_M^2 + P_NM^2
      else if b = 1 then 1/2 * P_NM^2 + P_M * P_NM + 1/2 * P_M^2
      else if b = 2 then 2 * P_M * P_NM
      else 0
    else 0
  else if c = 2 then
    if a = 0 then
      if b = 0 then P_M^2
      else if b = 1 then 1/2 * P_M^2 + 1/2 * P_M * P_NM
      else if b = 2 then P_NM * P_M
      else 0
    else if a = 1 then
      if b = 0 then 1/2 * P_M^2 + 1/2 * P_M * P_NM
      else if b = 1 then 1/4 * P_M^2 + 1/2 * P_M * P_NM + 1/4 * P_NM^2
      else if b = 2 then 1/2 * P_M * P_NM + 1/2 * P_NM^2
      else 0
    else if a = 2 then
      if b = 0 then P_NM * P_M
      else if b = 1 then 1/2 * P_M * P_NM + 1/2 * P_NM^2
      else if b = 2 then P_NM^2
      else 0
    else 0
  else 0

/-- Spec-side definition (for comparison with `gene_matrix`): the probability
that a parent with gene count g transmits a variant allele after mutation,
following the spec's words: g=0 → m; g=1 → 0.5; g=2 → 1−m. -/
def q (g : Nat) : ℚ :=
  if g = 0 then PROBS_mutation
  else if g = 1 then 1/2
  else if g = 2 then 1 - PROBS_mutation
  else 0

/-- Spec-side definition (for comparison with `gene_matrix`): the spec's
derivation of the transition table.  The entry for child count 2 is
q(pA)·q(pB), for child count 0 it is (1−q(pA))·(1−q(pB)), and for child
count 1 it is q(pA)·(1−q(pB)) + (1−q(pA))·q(pB). -/
def spec_gene_matrix (c a b : Nat) : ℚ :=
  if c = 0 then (1 - q a) * (1 - q b)
  else if c = 1 then q a * (1 - q b) + (1 - q a) * q b
  else if c = 2 then q a * q b
  else 0

/-- C1: the table built by `create_gene_matrix` does NOT everywhere equal the
spec's derivation.  At child count 0 with parent counts (2, 1) the code
computes `0.5 * P_NM * P_M` = 99/20000 = 0.00495, while the spec's derivation
gives (1−q(2))·(1−q(1)) = m·0.5 = 1/200 = 0.005.  (The same slip is copied to
the symmetric entry (0, 1, 2); every other entry matches the derivation.) -/
theorem C1_gene_matrix_deviates_from_spec_at_0_2_1 :
    gene_matrix 0 2 1 = 99/20000 ∧ spec_gene_matrix 0 2 1 = 1/200 ∧
    gene_matrix 0 2 1 ≠ spec_gene_matrix 0 2 1 := by
  refine ⟨?_, ?_, ?_⟩ <;>
    norm_num [gene_matrix, spec_gene_matrix, q, P_M, P_NM, PROBS_mutation]

/-- Every entry of `gene_matrix` other than (0, 2, 1) and (0, 1, 2) agrees
with the spec's derivation. -/
theorem gene_matrix_eq_spec_off_bug :
    ∀ c < 3, ∀ a < 3, ∀ b < 3, ¬(c = 0 ∧ a = 2 ∧ b = 1) → ¬(c = 0 ∧ a = 1 ∧ b = 2) →
      gene_matrix c a b = spec_gene_matrix c a b := by
  intro c hc a ha b hb h1 h2
  interval_cases c <;> interval_cases a <;> interval_cases b <;>
    norm_num [gene_matrix, spec_gene_matrix, q, P_M, P_NM, PROBS_mutation] at h1 h2 ⊢

/-- C2: the row of the transition table at parent counts (2, 1) sums over the
three child counts to 19999/20000 = 0.99995, which differs from 1 by
1/20000 = 0.00005, far more than the allowed 1e-9.  (All other parent pairs do
sum to exactly 1; the failure comes from the slip recorded in C1.) -/
theorem C2_row_sum_fails_at_parents_2_1 :
    gene_matrix 0 2 1 + gene_matrix 1 2 1 + gene_matrix 2 2 1 = 19999/20000 ∧
    1 - (gene_matrix 0 2 1 + gene_matrix 1 2 1 + gene_matrix 2 2 1)
      = (1 : ℚ)/20000 ∧
    ((1 : ℚ)/1000000000 < 1/20000) := by
  refine ⟨?_, ?_, by norm_num⟩ <;>
    norm_num [gene_matrix, P_M, P_NM, PROBS_mutation]

/-- All parent pairs other than (2,1) and (1,2) give rows of `gene_matrix`
that sum to exactly 1 over the three child counts. -/
theorem row_sum_one_off_bug :
    ∀ a < 3, ∀ b < 3, ¬(a = 2 ∧ b = 1) → ¬(a = 1 ∧ b = 2) →
      gene_matrix 0 a b + gene_matrix 1 a b + gene_matrix 2 a b = 1 := by
  intro a ha b hb h1 h2
  interval_cases a <;> interval_cases b <;>
    norm_num [gene_matrix, P_M, P_NM, PROBS_mutation] at h1 h2 ⊢

/-- C8: the transition table is symmetric in its two parent indices:
for all child and parent gene counts in {0,1,2},
`gene_matrix c a b = gene_matrix c b a`. -/
theorem C8_gene_matrix_symmetric :
    ∀ c < 3, ∀ a < 3, ∀ b < 3, gene_matrix c a b = gene_matrix c b a := by
  intro c hc a ha b hb
  interval_cases c <;> interval_cases a <;> interval_cases b <;>
    norm_num [gene_matrix, P_M, P_NM, PROBS_mutation]

/-- Witness for C8 at the concrete indices c = 0, a = 2, b = 1. -/
theorem C8_gene_matrix_symmetric_witness :
    gene_matrix 0 2 1 = gene_matrix 0 1 2 :=
  C8_gene_matrix_symmetric 0 (by norm_num) 2 (by norm_num) 1 (by norm_num)

/-- One row of the person table produced by `load_data`: a name, optional
mother and father names, and the optional observed trait value. -/
structure Person where
  name : String
  mother : Option String
  father : Option String
  trait : Option Bool
deriving DecidableEq

/-- The keys of the person table (`names = set(people)` in `main`), in table
order. -/
def namesOf (people : List Person) : List String := people.map Person.name

/-- The input contract of the spec (section 6): a person has either both
parent references set or neither. -/
def wellFormed (people : List Person) : Prop :=
  ∀ p ∈ people, (p.mother = none ↔ p.father = none)

/-- The gene count `ref[n]["genes"]` that `joint_probability` assigns to a
name: 1 if it is in `one_gene`, else 2 if in `two_genes`, else 0. -/
def genesOf (one_gene two_genes : List String) (n : String) : Nat :=
  if n ∈ one_gene then 1 else if n ∈ two_genes then 2 else 0

/-- The factor `joint_probability` appends to `joint_prob` for one person:
gene probability (prior when `mother is None`, transition-matrix entry
`gene_matrix[own][father][mother]` otherwise) times trait probability.
When `mother` is set but `father` is not, the source raises a KeyError on
`ref[None]`; that unreachable branch (ruled out by `wellFormed`) is sent
to 0 here. -/
def personFactor (one_gene two_genes have_trait : List String) (p : Person) : ℚ :=
  match p.mother with
  | none =>
      PROBS_gene (genesOf one_gene two_genes p.name) *
        PROBS_trait (genesOf one_gene two_genes p.name) (decide (p.name ∈ have_trait))
  | some m =>
      (match p.father with
       | some f =>
           gene_matrix (genesOf one_gene two_genes p.name)
             (genesOf one_gene two_genes f) (genesOf one_gene two_genes m)
       | none => 0) *
        PROBS_trait (genesOf one_gene two_genes p.name) (decide (p.name ∈ have_trait))

/-- `joint_probability`: the per-person factors are collected into a list and
multiplied together starting from `final_prob = 1`. -/
def joint_probability (people : List Person)
    (one_gene two_genes have_trait : List String) : ℚ :=
  (people.map (personFactor one_gene two_genes have_trait)).foldl (· * ·) 1

/-- Spec-side definition (for comparison with `joint_probability`): the gene
factor as the spec words it, an unconditional gene-distribution lookup when
the person has no recorded parents, otherwise the transition-table entry
indexed by the person's own count and the counts of father and mother. -/
def spec_gene_factor (one_gene two_genes : List String) (p : Person) : ℚ :=
  match p.mother, p.father with
  | none, none => PROBS_gene (genesOf one_gene two_genes p.name)
  | some m, some f =>
      gene_matrix (genesOf one_gene two_genes p.name)
        (genesOf one_gene two_genes f) (genesOf one_gene two_genes m)
  | _, _ => 0

/-- Spec-side definition: the trait factor, a trait-given-gene-count lookup at
the person's hypothesized gene count and trait value. -/
def spec_trait_factor (one_gene two_genes have_trait : List String) (p : Person) : ℚ :=
  PROBS_trait (genesOf one_gene two_genes p.name) (decide (p.name ∈ have_trait))

/-- Spec-side definition: the product over all persons of gene factor times
trait factor. -/
def spec_joint_probability (people : List Person)
    (one_gene two_genes have_trait : List String) : ℚ :=
  (people.map fun p =>
    spec_gene_factor one_gene two_genes p *
      spec_trait_factor one_gene two_genes have_trait p).prod

/-- `combinations r s`: the element lists of `itertools.combinations(s, r)`,
in the order that iterator produces them. -/
def combinations : Nat → List String → List (List String)
  | 0, _ => [[]]
  | _ + 1, [] => []
  | r + 1, x :: xs => (combinations r xs).map (x :: ·) ++ combinations (r + 1) xs

/-- `powerset` from the source: all subsets of `s`, enumerated as
combinations of size 0, 1, …, len(s) chained together. -/
def powerset (s : List String) : List (List String) :=
  (List.range (s.length + 1)).flatMap (fun r => combinations r s)

/-- `fails_evidence` in `main`: some person has known trait evidence that
differs from membership in the candidate `have_trait` set. -/
def failsEvidence (people : List Person) (have_trait : List String) : Bool :=
  people.any fun p =>
    match p.trait with
    | some b => b != decide (p.name ∈ have_trait)
    | none => false

/-- The trait subsets that survive the evidence filter in `main`
(the others are skipped by `continue`). -/
def acceptedTraits (people : List Person) : List (List String) :=
  (powerset (namesOf people)).filter (fun ht => !failsEvidence people ht)

/-- The nested gene loops of `main`: `one_gene` over `powerset(names)` and
`two_genes` over `powerset(names - one_gene)`. -/
def genePairs (names : List String) : List (List String × List String) :=
  (powerset names).flatMap fun og =>
    (powerset (names.filter (fun x => decide (x ∉ og)))).map (fun tg => (og, tg))

/-- One enumerated configuration: `(one_gene, two_genes, have_trait)`. -/
abbrev Config := List String × List String × List String

/-- The full sequence of configurations `main` evaluates: for each accepted
trait subset, every gene pair. -/
def acceptedConfigs (people : List Person) : List Config :=
  (acceptedTraits people).flatMap fun ht =>
    (genePairs (namesOf people)).map (fun pr => (pr.1, pr.2, ht))

/-- One person's accumulator record in `probabilities`: three gene buckets
and two trait buckets. -/
structure Dist where
  gene0 : ℚ
  gene1 : ℚ
  gene2 : ℚ
  traitT : ℚ
  traitF : ℚ
deriving DecidableEq

/-- The all-zero accumulator record `main` starts each person with. -/
def initDist : Dist := ⟨0, 0, 0, 0, 0⟩

/-- The initial `probabilities` table: every person all-zero. -/
def initTable : String → Dist := fun _ => initDist

/-- Gene bucket lookup, index 0, 1, 2. -/
def geneBucket (d : Dist) (i : Fin 3) : ℚ :=
  if i = 0 then d.gene0 else if i = 1 then d.gene1 else d.gene2

/-- Trait bucket lookup, keyed by the boolean trait value. -/
def traitBucket (d : Dist) (t : Bool) : ℚ :=
  if t then d.traitT else d.traitF

/-- Sum of a person's three gene buckets (`gene_total` in `normalize`). -/
def geneSum (d : Dist) : ℚ := d.gene0 + d.gene1 + d.gene2

/-- Sum of a person's two trait buckets (`trait_total` in `normalize`). -/
def traitSum (d : Dist) : ℚ := d.traitT + d.traitF

/-- The gene half of the loop body of `update`: add `p` to bucket 1, 2 or 0
according to membership in `one_gene` and `two_genes`. -/
def updGene (one_gene two_genes : List String) (p : ℚ) (n : String) (d : Dist) : Dist :=
  if n ∈ one_gene then { d with gene1 := d.gene1 + p }
  else if n ∈ two_genes then { d with gene2 := d.gene2 + p }
  else { d with gene0 := d.gene0 + p }

/-- The trait half of the loop body of `update`: add `p` to the bucket of the
person's membership in `have_trait`. -/
def updTrait (have_trait : List String) (p : ℚ) (n : String) (d : Dist) : Dist :=
  if n ∈ have_trait then { d with traitT := d.traitT + p }
  else { d with traitF := d.traitF + p }

/-- `update`: for every person, add `p` to one gene bucket and one trait
bucket. -/
def update (probabilities : String → Dist)
    (one_gene two_genes have_trait : List String) (p : ℚ) : String → Dist :=
  fun n => updTrait have_trait p n (updGene one_gene two_genes p n (probabilities n))

/-- One iteration of the inner loop of `main`: evaluate the joint probability
of a configuration and feed it to `update`. -/
def step (people : List Person) (t : String → Dist) (c : Config) : String → Dist :=
  update t c.1 c.2.1 c.2.2 (joint_probability people c.1 c.2.1 c.2.2)

/-- Folding the accumulation loop of `main` over a list of configurations. -/
def accumulateFrom (people : List Person) (t : String → Dist)
    (cfgs : List Config) : String → Dist :=
  cfgs.foldl (step people) t

/-- The accumulator table after the full search of `main`. -/
def accumulate (people : List Person) : String → Dist :=
  accumulateFrom people initTable (acceptedConfigs people)

/-- Total probability mass accumulated over a list of configurations. -/
def totalMass (people : List Person) (cfgs : List Config) : ℚ :=
  (cfgs.map fun c => joint_probability people c.1 c.2.1 c.2.2).sum

/-- One person's record after `normalize`: each bucket divided by its
distribution's total. -/
def normalizeDist (d : Dist) : Dist :=
  ⟨d.gene0 / geneSum d, d.gene1 / geneSum d, d.gene2 / geneSum d,
   d.traitT / traitSum d, d.traitF / traitSum d⟩

/-- `normalize`: divide every bucket of every person by that person's
distribution total.  Python computes `alpha = 1 / gene_total` and
`beta = 1 / trait_total`, which raises ZeroDivisionError when a total is
zero; the raised error is modelled by `none`. -/
def normalize (names : List String) (t : String → Dist) : Option (String → Dist) :=
  if names.all (fun n => decide (geneSum (t n) ≠ 0 ∧ traitSum (t n) ≠ 0)) then
    some (fun n => if n ∈ names then normalizeDist (t n) else t n)
  else none

/-- The full enumeration–accumulation–normalization pipeline of `main`
(the out-of-scope CSV loading and printing omitted). -/
def pipeline (people : List Person) : Option (String → Dist) :=
  normalize (namesOf people) (accumulate people)

/-- The branch test of `failsEvidence` for a single person, unfolded. -/
theorem failsEvidence_person_iff (t : Option Bool) (c : Bool) :
    (match t with
      | some b => b != c
      | none => false) = true ↔ ∃ b, t = some b ∧ b ≠ c := by
  cases t <;> simp

/-- C7: a candidate trait subset is skipped (rejected by the evidence check,
hence contributing nothing) exactly when some person has known trait
evidence that differs from the person's membership in the subset; persons
with unknown evidence impose no constraint.  The second conjunct restates
this through the surviving-subsets list of the enumeration. -/
theorem C7_evidence_filter :
    ∀ (people : List Person) (ht : List String),
      (failsEvidence people ht = true ↔
        ∃ p ∈ people, ∃ b, p.trait = some b ∧ ¬(p.name ∈ ht ↔ b = true)) ∧
      (ht ∈ acceptedTraits people ↔
        ht ∈ powerset (namesOf people) ∧
          ¬∃ p ∈ people, ∃ b, p.trait = some b ∧ ¬(p.name ∈ ht ↔ b = true)) := by
  intro people ht
  have key : failsEvidence people ht = true ↔
      ∃ p ∈ people, ∃ b, p.trait = some b ∧ ¬(p.name ∈ ht ↔ b = true) := by
    unfold failsEvidence
    rw [List.any_eq_true]
    constructor
    · rintro ⟨p, hp, hval⟩
      rcases (failsEvidence_person_iff p.trait (decide (p.name ∈ ht))).1 hval with
        ⟨b, hb, hne⟩
      refine ⟨p, hp, b, hb, ?_⟩
      cases b <;> simp_all
    · rintro ⟨p, hp, b, hb, hne⟩
      refine ⟨p, hp, (failsEvidence_person_iff p.trait (decide (p.name ∈ ht))).2
        ⟨b, hb, ?_⟩⟩
      cases b <;> simp_all
  refine ⟨key, ?_⟩
  unfold acceptedTraits
  rw [List.mem_filter]
  simp only [Bool.not_eq_eq_eq_not, Bool.not_true, ← key]
  constructor
  · rintro ⟨h1, h2⟩
    exact ⟨h1, by simp [h2]⟩
  · rintro ⟨h1, h2⟩
    exact ⟨h1, by simpa using h2⟩

/-- C3 (amended): `normalize` performs no detection of the all-zero case.
Whenever some listed person's gene-bucket total or trait-bucket total is
zero, `normalize` is exactly the division by zero, modelled by `none`; no
distinct "no consistent configuration" value exists anywhere in the
program. -/
theorem C3_normalize_propagates_zero_division :
    ∀ (names : List String) (t : String → Dist),
      (∃ n ∈ names, geneSum (t n) = 0 ∨ traitSum (t n) = 0) →
      normalize names t = none := by
  rintro names t ⟨n, hn, hzero⟩
  unfold normalize
  rw [if_neg]
  intro hall
  rw [List.all_eq_true] at hall
  have := of_decide_eq_true (hall n hn)
  rcases hzero with h | h
  · exact this.1 h
  · exact this.2 h

/-- C3 counterexample to the claim as stated: on a one-person table whose
accumulators are all zero, `normalize` is reached and yields the
division-by-zero failure (`none`) — the program detects nothing before
normalization and reports no distinct condition. -/
theorem C3_no_detection_counterexample :
    normalize ["child"] initTable = none := by
  norm_num [normalize, initTable, initDist, geneSum, traitSum]

/-- Witness for the amended C3 statement at a concrete input. -/
theorem C3_normalize_zero_witness :
    normalize ["alice"] initTable = none :=
  C3_normalize_propagates_zero_division ["alice"] initTable
    ⟨"alice", by simp, Or.inl (by norm_num [initTable, initDist, geneSum])⟩

/-- The gene half of the update leaves the trait buckets unchanged and adds
`p` to the gene total. -/
theorem updGene_sums (og tg : List String) (p : ℚ) (n : String) (d : Dist) :
    geneSum (updGene og tg p n d) = geneSum d + p ∧
    traitSum (updGene og tg p n d) = traitSum d := by
  unfold updGene geneSum traitSum
  split_ifs <;> constructor <;> simp <;> ring

/-- The trait half of the update leaves the gene buckets unchanged and adds
`p` to the trait total. -/
theorem updTrait_sums (ht : List String) (p : ℚ) (n : String) (d : Dist) :
    geneSum (updTrait ht p n d) = geneSum d ∧
    traitSum (updTrait ht p n d) = traitSum d + p := by
  unfold updTrait geneSum traitSum
  split_ifs <;> constructor <;> simp <;> ring

/-- One `update` call adds `p` to every person's gene total and trait
total. -/
theorem update_sums (t : String → Dist) (og tg ht : List String) (p : ℚ)
    (n : String) :
    geneSum (update t og tg ht p n) = geneSum (t n) + p ∧
    traitSum (update t og tg ht p n) = traitSum (t n) + p := by
  unfold update
  constructor
  · rw [(updTrait_sums ht p n _).1, (updGene_sums og tg p n _).1]
  · rw [(updTrait_sums ht p n _).2, (updGene_sums og tg p n _).2]

/-- Accumulation over a configuration list adds the total accumulated mass to
every person's gene total and trait total. -/
theorem accumulateFrom_sums (people : List Person) :
    ∀ (cfgs : List Config) (t : String → Dist) (n : String),
      geneSum (accumulateFrom people t cfgs n) = geneSum (t n) + totalMass people cfgs ∧
      traitSum (accumulateFrom people t cfgs n) = traitSum (t n) + totalMass people cfgs := by
  intro cfgs
  induction cfgs with
  | nil => intro t n; simp [accumulateFrom, totalMass]
  | cons c cfgs ih =>
    intro t n
    have hstep := update_sums t c.1 c.2.1 c.2.2
      (joint_probability people c.1 c.2.1 c.2.2) n
    have ihc := ih (step people t c) n
    unfold accumulateFrom at ihc ⊢
    rw [List.foldl_cons]
    refine ⟨?_, ?_⟩
    · rw [ihc.1]
      show geneSum (step people t c n) + totalMass people cfgs = _
      rw [show step people t c n
            = update t c.1 c.2.1 c.2.2 (joint_probability people c.1 c.2.1 c.2.2) n
          from rfl, hstep.1]
      simp [totalMass]
      ring
    · rw [ihc.2]
      show traitSum (step people t c n) + totalMass people cfgs = _
      rw [show step people t c n
            = update t c.1 c.2.1 c.2.2 (joint_probability people c.1 c.2.1 c.2.2) n
          from rfl, hstep.2]
      simp [totalMass]
      ring

/-- C9: every `update` call adds `p` to exactly one gene bucket and exactly
one trait bucket of every person (the other buckets are unchanged), and
consequently, at every point of the accumulation, every person's gene-bucket
total equals that person's trait-bucket total, and this common total is the
same for all persons, namely the sum of all probabilities accumulated so
far. -/
theorem C9_update_accumulation_invariant :
    (∀ (t : String → Dist) (og tg ht : List String) (p : ℚ) (n : String),
      (∃ i : Fin 3, ∀ j : Fin 3,
        geneBucket (update t og tg ht p n) j
          = geneBucket (t n) j + (if j = i then p else 0)) ∧
      (∃ b : Bool, ∀ c : Bool,
        traitBucket (update t og tg ht p n) c
          = traitBucket (t n) c + (if c = b then p else 0))) ∧
    (∀ (people : List Person) (cfgs : List Config) (n₁ n₂ : String),
      geneSum (accumulateFrom people initTable cfgs n₁) = totalMass people cfgs ∧
      traitSum (accumulateFrom people initTable cfgs n₁) = totalMass people cfgs ∧
      geneSum (accumulateFrom people initTable cfgs n₁)
        = geneSum (accumulateFrom people initTable cfgs n₂)) := by
  constructor
  · intro t og tg ht p n
    constructor
    · by_cases h1 : n ∈ og
      · exact ⟨1, fun j => by
          fin_cases j <;>
            simp [update, updGene, updTrait, geneBucket, h1] <;> split_ifs <;> simp⟩
      · by_cases h2 : n ∈ tg
        · exact ⟨2, fun j => by
            fin_cases j <;>
              simp [update, updGene, updTrait, geneBucket, h1, h2] <;>
                split_ifs <;> simp⟩
        · exact ⟨0, fun j => by
            fin_cases j <;>
              simp [update, updGene, updTrait, geneBucket, h1, h2] <;>
                split_ifs <;> simp⟩
    · by_cases h3 : n ∈ ht
      · exact ⟨true, fun c => by
          cases c <;> simp [update, updGene, updTrait, traitBucket, h3] <;>
            split_ifs <;> simp⟩
      · exact ⟨false, fun c => by
          cases c <;> simp [update, updGene, updTrait, traitBucket, h3] <;>
            split_ifs <;> simp⟩
  · intro people cfgs n₁ n₂
    have h1 := accumulateFrom_sums people cfgs initTable n₁
    have h2 := accumulateFrom_sums people cfgs initTable n₂
    have hz : geneSum (initTable n₁) = 0 ∧ traitSum (initTable n₁) = 0 ∧
        geneSum (initTable n₂) = 0 := by
      norm_num [initTable, initDist, geneSum, traitSum]
    refine ⟨?_, ?_, ?_⟩
    · rw [h1.1, hz.1, zero_add]
    · rw [h1.2, hz.2.1, zero_add]
    · rw [h1.1, h2.1, hz.1, hz.2.2]

/-- Under the spec's input contract, the per-person factor computed by the
code coincides with the spec's gene factor times trait factor. -/
theorem personFactor_eq_spec (og tg ht : List String) (p : Person)
    (h : p.mother = none ↔ p.father = none) :
    personFactor og tg ht p =
      spec_gene_factor og tg p * spec_trait_factor og tg ht p := by
  rcases hm : p.mother with _ | m
  · have hf : p.father = none := h.1 hm
    unfold personFactor spec_gene_factor spec_trait_factor
    rw [hm, hf]
  · have hf : p.father ≠ none := fun hfn => by
      rw [h.2 hfn] at hm; cases hm
    rcases hfather : p.father with _ | f
    · exact absurd hfather hf
    · unfold personFactor spec_gene_factor spec_trait_factor
      rw [hm, hfather]

/-- C4: for every well-formed person table and every assignment,
`joint_probability` returns exactly the product over all persons of the gene
factor (unconditional lookup for founders, transition-table entry
`gene_matrix[own][father][mother]` otherwise, all gene counts taken from the
assignment) times the trait factor (trait-given-gene lookup at the person's
assigned gene count and trait value). -/
theorem C4_joint_probability_eq_spec :
    ∀ (people : List Person) (og tg ht : List String),
      wellFormed people →
      joint_probability people og tg ht = spec_joint_probability people og tg ht := by
  intro people og tg ht hwf
  unfold joint_probability spec_joint_probability
  rw [← List.prod_eq_foldl]
  congr 1
  exact List.map_congr_left fun p hp => personFactor_eq_spec og tg ht p (hwf p hp)

/-- Witness for C4 on a concrete three-person pedigree and assignment. -/
theorem C4_joint_probability_witness :
    joint_probability
      [⟨"harry", some "lily", some "james", none⟩,
       ⟨"james", none, none, some true⟩,
       ⟨"lily", none, none, some false⟩]
      ["harry"] [] ["james"] =
    spec_joint_probability
      [⟨"harry", some "lily", some "james", none⟩,
       ⟨"james", none, none, some true⟩,
       ⟨"lily", none, none, some false⟩]
      ["harry"] [] ["james"] :=
  C4_joint_probability_eq_spec _ _ _ _ (by
    intro p hp
    simp only [List.mem_cons, List.mem_singleton] at hp
    rcases hp with rfl | rfl | rfl | h <;> simp_all)

/-- Two gene-bucket additions for the same person commute. -/
theorem updGene_comm (og₁ tg₁ og₂ tg₂ : List String) (p₁ p₂ : ℚ) (n : String)
    (d : Dist) :
    updGene og₂ tg₂ p₂ n (updGene og₁ tg₁ p₁ n d)
      = updGene og₁ tg₁ p₁ n (updGene og₂ tg₂ p₂ n d) := by
  rcases d with ⟨g0, g1, g2, tt, tf⟩
  unfold updGene
  split_ifs <;> simp [Dist.mk.injEq, add_comm, add_left_comm, add_assoc]

/-- Two trait-bucket additions for the same person commute. -/
theorem updTrait_comm (ht₁ ht₂ : List String) (p₁ p₂ : ℚ) (n : String)
    (d : Dist) :
    updTrait ht₂ p₂ n (updTrait ht₁ p₁ n d)
      = updTrait ht₁ p₁ n (updTrait ht₂ p₂ n d) := by
  rcases d with ⟨g0, g1, g2, tt, tf⟩
  unfold updTrait
  split_ifs <;> simp [Dist.mk.injEq, add_comm, add_left_comm, add_assoc]

/-- A gene-bucket addition commutes with a trait-bucket addition: they touch
disjoint fields. -/
theorem updGene_updTrait_comm (og tg ht : List String) (p₁ p₂ : ℚ) (n : String)
    (d : Dist) :
    updGene og tg p₂ n (updTrait ht p₁ n d)
      = updTrait ht p₁ n (updGene og tg p₂ n d) := by
  rcases d with ⟨g0, g1, g2, tt, tf⟩
  unfold updGene updTrait
  split_ifs <;> rfl

/-- Two `update` calls commute. -/
theorem update_comm (og₁ tg₁ ht₁ og₂ tg₂ ht₂ : List String) (p₁ p₂ : ℚ)
    (t : String → Dist) :
    update (update t og₁ tg₁ ht₁ p₁) og₂ tg₂ ht₂ p₂
      = update (update t og₂ tg₂ ht₂ p₂) og₁ tg₁ ht₁ p₁ := by
  funext n
  show updTrait ht₂ p₂ n (updGene og₂ tg₂ p₂ n
      (updTrait ht₁ p₁ n (updGene og₁ tg₁ p₁ n (t n))))
    = updTrait ht₁ p₁ n (updGene og₁ tg₁ p₁ n
      (updTrait ht₂ p₂ n (updGene og₂ tg₂ p₂ n (t n))))
  rw [updGene_updTrait_comm, updTrait_comm, updGene_updTrait_comm,
    updGene_comm]

/-- Two iterations of the accumulation loop commute. -/
theorem step_comm (people : List Person) (t : String → Dist) (c₁ c₂ : Config) :
    step people (step people t c₁) c₂ = step people (step people t c₂) c₁ :=
  update_comm _ _ _ _ _ _ _ _ t

/-- C10: the pipeline is a deterministic function of its input, regenerating
the subset enumeration yields the same list, and the accumulation has no
hidden ordering dependence: accumulating any permutation of a configuration
list yields the identical table. -/
theorem C10_deterministic_order_independent :
    (∀ people : List Person, pipeline people = pipeline people) ∧
    (∀ s : List String, powerset s = powerset s) ∧
    (∀ (people : List Person) (t : String → Dist) (cfgs₁ cfgs₂ : List Config),
      cfgs₁.Perm cfgs₂ →
      accumulateFrom people t cfgs₁ = accumulateFrom people t cfgs₂) := by
  refine ⟨fun _ => rfl, fun _ => rfl, ?_⟩
  intro people t cfgs₁ cfgs₂ hperm
  exact hperm.foldl_eq' (fun c₁ _ c₂ _ u => step_comm people u c₁ c₂) t

/-- Witness for C10 on a concrete two-configuration permutation. -/
theorem C10_order_independence_witness :
    accumulateFrom [] initTable [(["a"], [], []), ([], ["a"], [])]
      = accumulateFrom [] initTable [([], ["a"], []), (["a"], [], [])] :=
  (C10_deterministic_order_independent).2.2 [] initTable _ _
    (List.Perm.swap _ _ _)

/-- Every entry of the source's constant gene prior is nonnegative. -/
theorem PROBS_gene_nonneg (g : Nat) : 0 ≤ PROBS_gene g := by
  unfold PROBS_gene; split_ifs <;> norm_num

/-- Every entry of the source's trait table is nonnegative. -/
theorem PROBS_trait_nonneg (g : Nat) (t : Bool) : 0 ≤ PROBS_trait g t := by
  unfold PROBS_trait; split_ifs <;> norm_num

/-- The gene prior is positive at gene counts 0, 1, 2. -/
theorem PROBS_gene_pos : ∀ g < 3, 0 < PROBS_gene g := by
  intro g hg; interval_cases g <;> norm_num [PROBS_gene]

/-- The trait table is positive at gene counts 0, 1, 2. -/
theorem PROBS_trait_pos : ∀ g < 3, ∀ t : Bool, 0 < PROBS_trait g t := by
  intro g hg t; interval_cases g <;> cases t <;> norm_num [PROBS_trait]

/-- Every transition-matrix entry with indices in {0,1,2} is positive. -/
theorem gene_matrix_pos : ∀ c < 3, ∀ a < 3, ∀ b < 3, 0 < gene_matrix c a b := by
  intro c hc a ha b hb
  interval_cases c <;> interval_cases a <;> interval_cases b <;>
    norm_num [gene_matrix, P_M, P_NM, PROBS_mutation]

/-- Every entry of the transition matrix is nonnegative (entries out of the
0..2 range are the `np.zeros` value 0). -/
theorem gene_matrix_nonneg (c a b : Nat) : 0 ≤ gene_matrix c a b := by
  rcases Nat.lt_or_ge c 3 with hc | hc
  · rcases Nat.lt_or_ge a 3 with ha | ha
    · rcases Nat.lt_or_ge b 3 with hb | hb
      · exact le_of_lt (gene_matrix_pos c hc a ha b hb)
      · interval_cases c <;> interval_cases a <;>
          simp [gene_matrix, show b ≠ 0 by omega, show b ≠ 1 by omega,
            show b ≠ 2 by omega]
    · interval_cases c <;>
        simp [gene_matrix, show a ≠ 0 by omega, show a ≠ 1 by omega,
          show a ≠ 2 by omega]
  · simp [gene_matrix, show c ≠ 0 by omega, show c ≠ 1 by omega,
      show c ≠ 2 by omega]

/-- The assigned gene count of any name is 0, 1 or 2. -/
theorem genesOf_lt (og tg : List String) (n : String) : genesOf og tg n < 3 := by
  unfold genesOf; split_ifs <;> norm_num

/-- Each per-person factor is nonnegative (including the unreachable
missing-father branch, which is 0). -/
theorem personFactor_nonneg (og tg ht : List String) (p : Person) :
    0 ≤ personFactor og tg ht p := by
  unfold personFactor
  rcases p.mother with _ | m
  · exact mul_nonneg (PROBS_gene_nonneg _) (PROBS_trait_nonneg _ _)
  · rcases p.father with _ | f
    · simp
    · exact mul_nonneg (gene_matrix_nonneg _ _ _) (PROBS_trait_nonneg _ _)

/-- Under the input contract every per-person factor is positive: all table
entries involved are positive. -/
theorem personFactor_pos (og tg ht : List String) (p : Person)
    (h : p.mother = none ↔ p.father = none) :
    0 < personFactor og tg ht p := by
  unfold personFactor
  rcases hm : p.mother with _ | m
  · exact mul_pos (PROBS_gene_pos _ (genesOf_lt og tg p.name))
      (PROBS_trait_pos _ (genesOf_lt og tg p.name) _)
  · rcases hf : p.father with _ | f
    · rw [h.2 hf] at hm; cases hm
    · exact mul_pos
        (gene_matrix_pos _ (genesOf_lt og tg p.name) _ (genesOf_lt og tg f) _
          (genesOf_lt og tg m))
        (PROBS_trait_pos _ (genesOf_lt og tg p.name) _)

/-- The joint probability of any configuration is nonnegative. -/
theorem joint_probability_nonneg (people : List Person)
    (og tg ht : List String) : 0 ≤ joint_probability people og tg ht := by
  unfold joint_probability
  rw [← List.prod_eq_foldl]
  refine List.prod_nonneg fun a ha => ?_
  rcases List.mem_map.1 ha with ⟨p, _, rfl⟩
  exact personFactor_nonneg og tg ht p

/-- Under the input contract the joint probability of any configuration is
positive. -/
theorem joint_probability_pos (people : List Person)
    (og tg ht : List String) (hwf : wellFormed people) :
    0 < joint_probability people og tg ht := by
  unfold joint_probability
  rw [← List.prod_eq_foldl]
  refine List.prod_pos fun a ha => ?_
  rcases List.mem_map.1 ha with ⟨p, hp, rfl⟩
  exact personFactor_pos og tg ht p (hwf p hp)

/-- A sum of positive rationals over a nonempty list is positive. -/
theorem list_sum_pos : ∀ l : List ℚ, l ≠ [] → (∀ x ∈ l, 0 < x) → 0 < l.sum := by
  intro l
  induction l with
  | nil => intro h; exact absurd rfl h
  | cons x xs ih =>
    intro _ h
    rcases eq_or_ne xs [] with rfl | hne
    · simpa using h x (by simp)
    · have h1 := ih hne fun y hy => h y (List.mem_cons_of_mem _ hy)
      have h2 := h x (by simp)
      rw [List.sum_cons]
      linarith

/-- With at least one accepted configuration and a well-formed table, the
total accumulated mass is positive. -/
theorem totalMass_pos (people : List Person) (hwf : wellFormed people)
    (cfgs : List Config) (hne : cfgs ≠ []) : 0 < totalMass people cfgs := by
  unfold totalMass
  refine list_sum_pos _ (by simpa using hne) fun x hx => ?_
  rcases List.mem_map.1 hx with ⟨c, _, rfl⟩
  exact joint_probability_pos people c.1 c.2.1 c.2.2 hwf

/-- All five buckets of a record are nonnegative. -/
def distNonneg (d : Dist) : Prop :=
  0 ≤ d.gene0 ∧ 0 ≤ d.gene1 ∧ 0 ≤ d.gene2 ∧ 0 ≤ d.traitT ∧ 0 ≤ d.traitF

/-- A single update with nonnegative mass preserves bucket nonnegativity. -/
theorem update_distNonneg (t : String → Dist) (og tg ht : List String)
    (p : ℚ) (hp : 0 ≤ p) (n : String) (h : distNonneg (t n)) :
    distNonneg (update t og tg ht p n) := by
  rcases ht' : t n with ⟨g0, g1, g2, tt, tf⟩
  rw [ht'] at h
  rcases h with ⟨h0, h1, h2, h3, h4⟩
  show distNonneg (updTrait ht p n (updGene og tg p n (t n)))
  rw [ht']
  unfold updGene updTrait distNonneg
  split_ifs <;> refine ⟨?_, ?_, ?_, ?_, ?_⟩ <;> simp <;> linarith

/-- Accumulation from a nonnegative table keeps every bucket nonnegative. -/
theorem accumulateFrom_distNonneg (people : List Person) :
    ∀ (cfgs : List Config) (t : String → Dist) (n : String),
      distNonneg (t n) → distNonneg (accumulateFrom people t cfgs n) := by
  intro cfgs
  induction cfgs with
  | nil => intro t n h; exact h
  | cons c cfgs ih =>
    intro t n h
    show distNonneg (accumulateFrom people (step people t c) cfgs n)
    exact ih (step people t c) n
      (update_distNonneg t c.1 c.2.1 c.2.2 _
        (joint_probability_nonneg people c.1 c.2.1 c.2.2) n h)

/-- C5: with a well-formed table and at least one accepted configuration,
the pipeline succeeds, and for every person the normalized gene distribution
sums to 1, the trait distribution sums to 1, and every output probability
lies in [0, 1] (exact rational arithmetic; finiteness is inherent to ℚ). -/
theorem C5_pipeline_outputs_are_distributions :
    ∀ people : List Person,
      wellFormed people →
      acceptedConfigs people ≠ [] →
      ∃ t, pipeline people = some t ∧
        ∀ n ∈ namesOf people,
          geneSum (t n) = 1 ∧ traitSum (t n) = 1 ∧
          (∀ j : Fin 3, 0 ≤ geneBucket (t n) j ∧ geneBucket (t n) j ≤ 1) ∧
          (∀ b : Bool, 0 ≤ traitBucket (t n) b ∧ traitBucket (t n) b ≤ 1) := by
  intro people hwf hne
  have hS : 0 < totalMass people (acceptedConfigs people) :=
    totalMass_pos people hwf (acceptedConfigs people) hne
  have hsums : ∀ n : String,
      geneSum (accumulate people n) = totalMass people (acceptedConfigs people) ∧
      traitSum (accumulate people n) = totalMass people (acceptedConfigs people) := by
    intro n
    have h := accumulateFrom_sums people (acceptedConfigs people) initTable n
    have hz : geneSum (initTable n) = 0 ∧ traitSum (initTable n) = 0 := by
      norm_num [initTable, initDist, geneSum, traitSum]
    unfold accumulate
    exact ⟨by rw [h.1, hz.1, zero_add], by rw [h.2, hz.2, zero_add]⟩
  have hnn : ∀ n : String, distNonneg (accumulate people n) := by
    intro n
    refine accumulateFrom_distNonneg people (acceptedConfigs people) initTable n ?_
    norm_num [initTable, initDist, distNonneg]
  have hcond : (namesOf people).all
      (fun n => decide (geneSum (accumulate people n) ≠ 0 ∧
        traitSum (accumulate people n) ≠ 0)) = true := by
    rw [List.all_eq_true]
    intro n _
    refine decide_eq_true ⟨?_, ?_⟩
    · rw [(hsums n).1]; exact ne_of_gt hS
    · rw [(hsums n).2]; exact ne_of_gt hS
  refine ⟨fun n => if n ∈ namesOf people then normalizeDist (accumulate people n)
      else accumulate people n, ?_, ?_⟩
  · unfold pipeline normalize
    rw [if_pos hcond]
  · intro n hn
    have hteq : (fun n => if n ∈ namesOf people then normalizeDist (accumulate people n)
        else accumulate people n) n = normalizeDist (accumulate people n) := by
      simp [hn]
    rw [hteq]
    rcases hsums n with ⟨hg, ht'⟩
    rcases hnn n with ⟨h0, h1, h2, h3, h4⟩
    rcases hd : accumulate people n with ⟨g0, g1, g2, tt, tf⟩
    rw [hd] at hg ht' h0 h1 h2 h3 h4
    have hgS : geneSum ⟨g0, g1, g2, tt, tf⟩ ≠ 0 := by rw [hg]; exact ne_of_gt hS
    have htS : traitSum ⟨g0, g1, g2, tt, tf⟩ ≠ 0 := by rw [ht']; exact ne_of_gt hS
    have hgS' : 0 < geneSum ⟨g0, g1, g2, tt, tf⟩ := by rw [hg]; exact hS
    have htS' : 0 < traitSum ⟨g0, g1, g2, tt, tf⟩ := by rw [ht']; exact hS
    have hgdef : geneSum ⟨g0, g1, g2, tt, tf⟩ = g0 + g1 + g2 := rfl
    have htdef : traitSum ⟨g0, g1, g2, tt, tf⟩ = tt + tf := rfl
    refine ⟨?_, ?_, ?_, ?_⟩
    · show g0 / _ + g1 / _ + g2 / _ = 1
      rw [div_add_div_same, div_add_div_same, ← hgdef, div_self hgS]
    · show tt / _ + tf / _ = 1
      rw [div_add_div_same, ← htdef, div_self htS]
    · intro j
      have hb : geneBucket (normalizeDist ⟨g0, g1, g2, tt, tf⟩) j
            = geneBucket ⟨g0, g1, g2, tt, tf⟩ j / geneSum ⟨g0, g1, g2, tt, tf⟩ := by
        unfold geneBucket normalizeDist
        split_ifs <;> rfl
      have hble : geneBucket ⟨g0, g1, g2, tt, tf⟩ j ≤ geneSum ⟨g0, g1, g2, tt, tf⟩ := by
        unfold geneBucket
        rw [hgdef]
        split_ifs <;> simp <;> linarith
      have hbnn : 0 ≤ geneBucket ⟨g0, g1, g2, tt, tf⟩ j := by
        unfold geneBucket
        split_ifs <;> simpa
      rw [hb]
      exact ⟨div_nonneg hbnn (le_of_lt hgS'), (div_le_one hgS').2 hble⟩
    · intro b
      have hb : traitBucket (normalizeDist ⟨g0, g1, g2, tt, tf⟩) b
            = traitBucket ⟨g0, g1, g2, tt, tf⟩ b / traitSum ⟨g0, g1, g2, tt, tf⟩ := by
        unfold traitBucket normalizeDist
        split_ifs <;> rfl
      have hble : traitBucket ⟨g0, g1, g2, tt, tf⟩ b ≤ traitSum ⟨g0, g1, g2, tt, tf⟩ := by
        unfold traitBucket
        rw [htdef]
        split_ifs <;> linarith
      have hbnn : 0 ≤ traitBucket ⟨g0, g1, g2, tt, tf⟩ b := by
        unfold traitBucket
        split_ifs <;> simpa
      rw [hb]
      exact ⟨div_nonneg hbnn (le_of_lt htS'), (div_le_one htS').2 hble⟩

/-- Witness for C5 on a concrete one-person table. -/
theorem C5_pipeline_witness :
    ∃ t, pipeline [⟨"p", none, none, none⟩] = some t ∧
      ∀ n ∈ namesOf [⟨"p", none, none, none⟩],
        geneSum (t n) = 1 ∧ traitSum (t n) = 1 ∧
        (∀ j : Fin 3, 0 ≤ geneBucket (t n) j ∧ geneBucket (t n) j ≤ 1) ∧
        (∀ b : Bool, 0 ≤ traitBucket (t n) b ∧ traitBucket (t n) b ≤ 1) :=
  C5_pipeline_outputs_are_distributions [⟨"p", none, none, none⟩]
    (by intro p hp; simp only [List.mem_singleton] at hp; subst hp; simp)
    (by decide)

/-- Membership in `combinations r s`: exactly the subsequences of `s` of
length `r` (as `itertools.combinations` documents). -/
theorem mem_combinations :
    ∀ (s : List String) (r : Nat) (l : List String),
      l ∈ combinations r s ↔ l.Sublist s ∧ l.length = r := by
  intro s
  induction s with
  | nil =>
    intro r l
    cases r with
    | zero =>
      simp only [combinations, List.mem_singleton]
      constructor
      · rintro rfl; exact ⟨List.Sublist.refl _, rfl⟩
      · rintro ⟨hs, _⟩; exact List.sublist_nil.1 hs
    | succ r =>
      simp only [combinations, List.not_mem_nil, false_iff, not_and]
      intro hs
      rw [List.sublist_nil.1 hs]
      simp
  | cons x xs ih =>
    intro r l
    cases r with
    | zero =>
      simp only [combinations, List.mem_singleton]
      constructor
      · rintro rfl; exact ⟨List.nil_sublist _, rfl⟩
      · rintro ⟨_, hl⟩; exact List.length_eq_zero.1 hl
    | succ r =>
      simp only [combinations, List.mem_append, List.mem_map]
      constructor
      · rintro (⟨l', hl', rfl⟩ | h)
        · rcases (ih r l').1 hl' with ⟨hs, hlen⟩
          exact ⟨List.Sublist.cons₂ x hs, by simp [hlen]⟩
        · rcases (ih (r + 1) l).1 h with ⟨hs, hlen⟩
          exact ⟨List.Sublist.cons x hs, hlen⟩
      · rintro ⟨hs, hlen⟩
        cases hs with
        | cons _ h => exact Or.inr ((ih (r + 1) l).2 ⟨h, hlen⟩)
        | cons₂ _ h =>
          exact Or.inl ⟨_, (ih r _).2 ⟨h, by simpa using hlen⟩, rfl⟩

/-- `combinations` of a duplicate-free list has no duplicate element lists. -/
theorem nodup_combinations :
    ∀ (s : List String), s.Nodup → ∀ r : Nat, (combinations r s).Nodup := by
  intro s
  induction s with
  | nil =>
    intro _ r
    cases r with
    | zero => simp [combinations]
    | succ r => simp [combinations]
  | cons x xs ih =>
    intro hnd r
    rcases List.nodup_cons.1 hnd with ⟨hx, hxs⟩
    cases r with
    | zero => simp [combinations]
    | succ r =>
      refine List.Nodup.append ?_ (ih hxs (r + 1)) ?_
      · exact (ih hxs r).map fun a b hab => by injection hab
      · intro l hl₁ hl₂
        rcases List.mem_map.1 hl₁ with ⟨l', _, rfl⟩
        have hsub := ((mem_combinations xs (r + 1) (x :: l')).1 hl₂).1
        exact hx (hsub.subset (by simp))

/-- Membership in `powerset s`: exactly the subsequences of `s`. -/
theorem mem_powerset (s l : List String) : l ∈ powerset s ↔ l.Sublist s := by
  unfold powerset
  rw [List.mem_flatMap]
  constructor
  · rintro ⟨r, _, hl⟩
    exact ((mem_combinations s r l).1 hl).1
  · intro hs
    exact ⟨l.length, List.mem_range.2 (Nat.lt_succ_of_le hs.length_le),
      (mem_combinations s l.length l).2 ⟨hs, rfl⟩⟩

/-- `powerset` of a duplicate-free list lists each subset exactly once. -/
theorem nodup_powerset (s : List String) (hnd : s.Nodup) : (powerset s).Nodup := by
  unfold powerset
  rw [List.nodup_flatMap]
  refine ⟨fun r _ => nodup_combinations s hnd r, ?_⟩
  refine (List.pairwise_lt_range _).imp ?_
  intro r₁ r₂ hlt
  intro l h₁ h₂
  have e₁ := ((mem_combinations s r₁ l).1 h₁).2
  have e₂ := ((mem_combinations s r₂ l).1 h₂).2
  omega

/-- `combinations r s` has `choose (length s) r` element lists. -/
theorem length_combinations :
    ∀ (s : List String) (r : Nat), (combinations r s).length = s.length.choose r := by
  intro s
  induction s with
  | nil => intro r; cases r <;> simp [combinations]
  | cons x xs ih =>
    intro r
    cases r with
    | zero => simp [combinations]
    | succ r =>
      simp only [combinations, List.length_append, List.length_map, ih,
        List.length_cons]
      rw [Nat.choose_succ_succ]

/-- Bridge from mapped `List.range` sums to `Finset.range` sums. -/
theorem list_sum_range_map (f : Nat → Nat) :
    ∀ m : Nat, ((List.range m).map f).sum = ∑ i ∈ Finset.range m, f i := by
  intro m
  induction m with
  | zero => simp
  | succ m ih =>
    rw [List.range_succ, List.map_append, List.sum_append, Finset.sum_range_succ,
      ih]
    simp

/-- For N names there are 2^N enumerated subsets. -/
theorem length_powerset (s : List String) : (powerset s).length = 2 ^ s.length := by
  unfold powerset
  rw [List.length_flatMap]
  have h : List.map (List.length ∘ fun r => combinations r s)
      (List.range (s.length + 1))
      = (List.range (s.length + 1)).map (fun r => s.length.choose r) :=
    List.map_congr_left fun r _ => by
      simp [Function.comp, length_combinations]
  rw [h, list_sum_range_map, Nat.sum_range_choose]

/-- Removing the members of a subsequence from a duplicate-free list leaves
`length names - length og` elements. -/
theorem length_filter_not_mem :
    ∀ {og names : List String}, og.Sublist names → names.Nodup →
      (names.filter fun x => decide (x ∉ og)).length
        = names.length - og.length := by
  intro og names hsub
  induction hsub with
  | slnil => intro _; simp
  | @cons og l₂ a h ih =>
    intro hnd
    rcases List.nodup_cons.1 hnd with ⟨ha, hnd'⟩
    have hax : a ∉ og := fun hmem => ha (h.subset hmem)
    have hle := h.length_le
    rw [List.filter_cons, if_pos (by simpa using hax)]
    have := ih hnd'
    simp only [List.length_cons, this]
    omega
  | @cons₂ og l₂ a h ih =>
    intro hnd
    rcases List.nodup_cons.1 hnd with ⟨ha, hnd'⟩
    rw [List.filter_cons, if_neg (by simp)]
    have heq : (l₂.filter fun x => decide (x ∉ a :: og))
        = l₂.filter fun x => decide (x ∉ og) := by
      refine List.filter_congr fun y hy => ?_
      have hya : y ≠ a := fun h' => ha (h' ▸ hy)
      simp [hya]
    rw [heq, ih hnd']
    simp

/-- A list is a subsequence of a filtered list iff it is a subsequence of the
original all of whose members pass the filter. -/
theorem sublist_filter_iff (p : String → Bool) (B names : List String) :
    B.Sublist (names.filter p) ↔ B.Sublist names ∧ ∀ b ∈ B, p b = true := by
  constructor
  · intro h
    refine ⟨h.trans (List.filter_sublist names), fun b hb => ?_⟩
    exact (List.mem_filter.1 (h.subset hb)).2
  · rintro ⟨h, hall⟩
    have heq : B.filter p = B := List.filter_eq_self.2 hall
    have h2 := h.filter p
    rwa [heq] at h2

/-- Membership in `genePairs names`: exactly the ordered pairs of disjoint
subsequences of `names`. -/
theorem mem_genePairs (names : List String) (A B : List String) :
    (A, B) ∈ genePairs names ↔
      A.Sublist names ∧ B.Sublist names ∧ A.Disjoint B := by
  unfold genePairs
  rw [List.mem_flatMap]
  constructor
  · rintro ⟨og, hog, hmem⟩
    rcases List.mem_map.1 hmem with ⟨tg, htg, heq⟩
    rw [Prod.mk.injEq] at heq
    rw [heq.1] at hog
    rw [heq.1, heq.2] at htg
    have hA := (mem_powerset names A).1 hog
    have hB := (mem_powerset _ B).1 htg
    rcases (sublist_filter_iff _ B names).1 hB with ⟨hBn, hall⟩
    refine ⟨hA, hBn, ?_⟩
    intro a haA haB
    exact (of_decide_eq_true (hall a haB)) haA
  · rintro ⟨hA, hB, hdisj⟩
    refine ⟨A, (mem_powerset names A).2 hA, List.mem_map.2 ⟨B, ?_, rfl⟩⟩
    refine (mem_powerset _ B).2 ((sublist_filter_iff _ B names).2 ⟨hB, ?_⟩)
    intro b hb
    exact decide_eq_true fun hbA => hdisj hbA hb

/-- `genePairs` of a duplicate-free list has no duplicate pairs. -/
theorem nodup_genePairs (names : List String) (hnd : names.Nodup) :
    (genePairs names).Nodup := by
  unfold genePairs
  rw [List.nodup_flatMap]
  constructor
  · intro og _
    refine List.Nodup.map ?_ (nodup_powerset _ (hnd.filter _))
    intro t₁ t₂ h
    exact congrArg Prod.snd h
  · refine List.Pairwise.imp ?_ (nodup_powerset names hnd)
    intro og₁ og₂ hne
    intro x hx₁ hx₂
    rcases List.mem_map.1 hx₁ with ⟨t₁, _, rfl⟩
    rcases List.mem_map.1 hx₂ with ⟨t₂, _, heq⟩
    exact hne (congrArg Prod.fst heq).symm

/-- Sum of a flat-mapped list as a sum of per-element sums. -/
theorem list_sum_flatMap (f : Nat → List Nat) :
    ∀ l : List Nat, (l.flatMap f).sum = (l.map fun a => (f a).sum).sum := by
  intro l
  induction l with
  | nil => simp
  | cons a l ih => simp [List.flatMap_cons, List.sum_append, ih]

/-- For N names there are 3^N enumerated (one-gene, two-gene) pairs. -/
theorem length_genePairs (names : List String) (hnd : names.Nodup) :
    (genePairs names).length = 3 ^ names.length := by
  unfold genePairs
  rw [List.length_flatMap]
  have h1 : List.map (List.length ∘ fun og =>
        (powerset (names.filter fun x => decide (x ∉ og))).map fun tg => (og, tg))
      (powerset names)
      = (powerset names).map fun og => 2 ^ (names.length - og.length) :=
    List.map_congr_left fun og hog => by
      have hsub := (mem_powerset names og).1 hog
      simp only [Function.comp, List.length_map]
      rw [length_powerset, length_filter_not_mem hsub hnd]
  rw [h1]
  show (List.map (fun og => 2 ^ (names.length - og.length))
    ((List.range (names.length + 1)).flatMap fun r => combinations r names)).sum
      = 3 ^ names.length
  rw [List.map_flatMap, list_sum_flatMap]
  have h2 : List.map
      (fun a => (List.map (fun og => 2 ^ (names.length - og.length))
        (combinations a names)).sum)
      (List.range (names.length + 1))
      = (List.range (names.length + 1)).map
          (fun r => names.length.choose r * 2 ^ (names.length - r)) := by
    refine List.map_congr_left fun r _ => ?_
    have hconst : List.map (fun og => 2 ^ (names.length - og.length))
        (combinations r names)
        = List.map (fun _ => 2 ^ (names.length - r)) (combinations r names) :=
      List.map_congr_left fun og hog => by
        rw [((mem_combinations names r og).1 hog).2]
    rw [hconst, List.map_const', List.sum_const_nat, length_combinations]
  rw [h2, list_sum_range_map]
  have h3 : ∀ r ∈ Finset.range (names.length + 1),
      names.length.choose r * 2 ^ (names.length - r)
        = 2 ^ (names.length - r) * names.length.choose r :=
    fun r _ => Nat.mul_comm _ _
  rw [Finset.sum_congr rfl h3]
  have h4 := add_pow (1 : ℕ) 2 names.length
  simp only [one_pow, one_mul, Nat.cast_id] at h4
  rw [← h4]

/-- C6: on a duplicate-free name list the gene enumeration of `main`
generates every ordered pair of disjoint subsets (one-gene, two-gene) of the
names exactly once (no pair is repeated, and a pair occurs iff both
components are subsets — subsequences — of the names and are disjoint), the
trait enumeration lists 2^N subsets, and there are 3^N gene pairs. -/
theorem C6_enumeration_covers_partitions_once :
    ∀ names : List String, names.Nodup →
      (genePairs names).Nodup ∧
      (∀ A B : List String,
        (A, B) ∈ genePairs names ↔
          A.Sublist names ∧ B.Sublist names ∧ A.Disjoint B) ∧
      (powerset names).length = 2 ^ names.length ∧
      (genePairs names).length = 3 ^ names.length :=
  fun names hnd =>
    ⟨nodup_genePairs names hnd, fun A B => mem_genePairs names A B,
      length_powerset names, length_genePairs names hnd⟩

/-- Witness for C6 on the concrete name list ["a", "b"]. -/
theorem C6_enumeration_witness :
    (genePairs ["a", "b"]).Nodup ∧
    (∀ A B : List String,
      (A, B) ∈ genePairs ["a", "b"] ↔
        A.Sublist ["a", "b"] ∧ B.Sublist ["a", "b"] ∧ A.Disjoint B) ∧
    (powerset ["a", "b"]).length = 2 ^ (2 : Nat) ∧
    (genePairs ["a", "b"]).length = 3 ^ (2 : Nat) :=
  C6_enumeration_covers_partitions_once ["a", "b"] (by decide)

end Heredity
